import Mathlib

/-!
Shallow embedding of the `simple_hll` HyperLogLog implementation
(`src/hyperloglog.rs`, `src/serde.rs`) and proofs about its specification.

Register stores are `List ℕ` (the Rust `Vec<u8>`; all values produced by the
code fit in a byte and casts are modelled by explicit `% 256`).  Fallible
operations (assertions and out-of-bounds indexing, which panic in Rust)
return `Option`, with `none` for the aborted run.  Float arithmetic in the
estimator is carried out over `ℚ`; the fixed-point helpers `tau`/`sigma` and
the constant `ln 2` are abstracted as parameters where only their results are
composed, and the `sigma` loop itself is embedded over `ℚ` with explicit
fuel.
-/

namespace SimpleHll

/-- Fuel-bounded scan for the lowest set bit: halve the argument until it is
odd, counting the steps, for at most `fuel` steps. -/
def ctz_go : ℕ → ℕ → ℕ
  | 0, _ => 0
  | fuel + 1, n => if n % 2 = 1 then 0 else ctz_go fuel (n / 2) + 1

/-- Count of trailing zero bits as computed by `u64::trailing_zeros` in
`add_hash`: the fuel is the u64 bit width 64, so `ctz 0 = 64` and for
`0 < n < 2^64` the result is the number of times 2 divides `n`. -/
def ctz (n : ℕ) : ℕ := ctz_go 64 n

/-- Embedding of `HyperLogLog::<P>::new`: asserts `4 <= P <= 18` (a failed
assertion is a construction panic, modelled as `none`) and allocates `2^P`
zero registers. -/
def hll_new (P : ℕ) : Option (List ℕ) :=
  if 4 ≤ P ∧ P ≤ 18 then some (List.replicate (2 ^ P) 0) else none

/-- Embedding of `HyperLogLog::<P>::with_registers`: asserts only that the
length equals `2^P`; register values are not validated. -/
def hll_with_registers (P : ℕ) (registers : List ℕ) : Option (List ℕ) :=
  if registers.length = 2 ^ P then some registers else none

/-- Embedding of `add_hash`: `index = hash & (2^P - 1)`,
`one_position = trailing_zeros((hash >> P) | (1 << (64 - P))) + 1`, and the
register at `index` becomes the max of its old value and `one_position as u8`
(the cast is the `% 256`).  Whenever the store has length `2^P` the index is
in bounds, as in the Rust code. -/
def add_hash (P : ℕ) (registers : List ℕ) (hash : ℕ) : List ℕ :=
  let index := hash &&& (2 ^ P - 1)
  let one_position := ctz ((hash >>> P) ||| (1 <<< (64 - P))) + 1
  registers.set index (max (registers.getD index 0) (one_position % 256))

/-- Embedding of `merge`, the loop
`for i in 0..self.registers.len() { self[i] = max(self[i], other[i]) }`,
walking both stores in step: when `self` is exhausted the loop ends (any
surplus of `other` is silently ignored); if `other` is exhausted first, the
access `other.registers[i]` is an out-of-bounds panic, modelled as `none`. -/
def merge : List ℕ → List ℕ → Option (List ℕ)
  | [], _ => some []
  | _ :: _, [] => none
  | a :: ta, b :: tb => (merge ta tb).map (fun r => max a b :: r)

/-- Embedding of `num_empty_registers`: the number of zero registers. -/
def num_empty_registers (registers : List ℕ) : ℕ :=
  (registers.filter (fun x => x == 0)).length

/-- Embedding of the loop of `get_histogram`: the histogram slot at each
register value is incremented; a register value at or beyond the histogram
length (64 slots) is an out-of-bounds panic, modelled as `none`. -/
def hist_go : List ℕ → List ℕ → Option (List ℕ)
  | [], acc => some acc
  | r :: rest, acc =>
    if r < acc.length then hist_go rest (acc.set r (acc.getD r 0 + 1)) else none

/-- Embedding of `get_histogram`, starting from the 64 zero slots of
`[0u32; 64]`. -/
def get_histogram (registers : List ℕ) : Option (List ℕ) :=
  hist_go registers (List.replicate 64 0)

/-- Embedding of `f64::round` (round half away from zero) followed by the
saturating `as usize` cast (negative results clamp to zero). -/
def round_to_usize (x : ℚ) : ℕ :=
  (if 0 ≤ x then ⌊x + 1 / 2⌋ else -⌊-x + 1 / 2⌋).toNat

/-- Embedding of the body of `count`, over `ℚ`, with the numeric helpers
`hll_tau`, `hll_sigma` and the constant `2_f64.ln()` abstracted as the
parameters `tau`, `sigma`, `ln2` (the estimator only composes their
results).  The descending loop `for i in histogram[1..=q].iter().rev()` with
body `z += *i; z *= 0.5` is the left fold over the reversed ascending index
range. -/
def count_from_histogram (P : ℕ) (hist : List ℕ) (tau sigma : ℚ → ℚ)
    (ln2 : ℚ) : ℕ :=
  let m : ℚ := (2 ^ P : ℕ)
  let q : ℕ := 64 - P
  let z0 : ℚ := m * tau ((m - (hist.getD (q + 1) 0 : ℕ)) / m)
  let z1 : ℚ :=
    ((List.range' 1 q).reverse).foldl
      (fun z i => (z + (hist.getD i 0 : ℕ)) * (1 / 2)) z0
  let z : ℚ := z1 + m * sigma ((hist.getD 0 0 : ℕ) / m)
  round_to_usize (1 / 2 / ln2 * m * m / z)

/-- Embedding of `count`: build the histogram (panic on an out-of-range
register value, modelled as `none`) and apply the estimation formula. -/
def hll_count (P : ℕ) (registers : List ℕ) (tau sigma : ℚ → ℚ)
    (ln2 : ℚ) : Option ℕ :=
  (get_histogram registers).map
    (fun hist => count_from_histogram P hist tau sigma ln2)

/-- Spec-side restatement of the descending histogram fold, following the
spec's words: iterating `i` strictly from `q` down to `1`,
`z = (z + histogram[i]) * 0.5`. -/
def spec_fold (hist : List ℕ) : ℕ → ℚ → ℚ
  | 0, z => z
  | i + 1, z => spec_fold hist i ((z + (hist.getD (i + 1) 0 : ℕ)) * (1 / 2))

/-- Spec-side restatement of the body of `count`, following the spec's words:
`z = m * tau((m - histogram[q+1]) / m)`; then the descending fold from `q`
down to `1`; then `z = z + m * sigma(histogram[0] / m)`; finally
`round((0.5 / ln 2) * m * m / z)`. -/
def count_from_histogram_spec (P : ℕ) (hist : List ℕ) (tau sigma : ℚ → ℚ)
    (ln2 : ℚ) : ℕ :=
  let m : ℚ := (2 ^ P : ℕ)
  let q : ℕ := 64 - P
  let z0 : ℚ := m * tau ((m - (hist.getD (q + 1) 0 : ℕ)) / m)
  let z1 : ℚ := spec_fold hist q z0
  let z : ℚ := z1 + m * sigma ((hist.getD 0 0 : ℕ) / m)
  round_to_usize (1 / 2 / ln2 * m * m / z)

/-- Embedding of the serialized variant (`HyperLogLogVariant` and
`HyperLogLogVariantRef`): `Empty`, `Sparse` with `(u16 index, u8 value)`
pairs, or `Full` with the complete register sequence. -/
inductive HLLVariant where
  | empty : HLLVariant
  | sparse : List (ℕ × ℕ) → HLLVariant
  | full : List ℕ → HLLVariant
deriving DecidableEq

/-- Embedding of the sparse encoder: `enumerate` the store, keep the
non-zero registers, and store each index through the `index as u16` cast
(`% 2^16`). -/
def sparse_pairs (registers : List ℕ) : List (ℕ × ℕ) :=
  registers.enum.filterMap
    (fun p => if p.2 ≠ 0 then some (p.1 % 65536, p.2) else none)

/-- Embedding of the encoder `From<&HyperLogLog<P>> for HyperLogLogVariantRef`:
the variant is selected from `non_empty = 2^P - num_empty_registers`. -/
def hll_variant_of (P : ℕ) (registers : List ℕ) : HLLVariant :=
  let ne := 2 ^ P - num_empty_registers registers
  if ne = 0 then .empty
  else if ne * 3 ≤ 2 ^ P then .sparse (sparse_pairs registers)
  else .full registers

/-- Embedding of the sparse decode loop: each `(index, val)` pair is written
into the store; an index not below the store length is an out-of-bounds
panic, modelled as `none`. -/
def sparse_write : List (ℕ × ℕ) → List ℕ → Option (List ℕ)
  | [], regs => some regs
  | (i, v) :: rest, regs =>
    if i < regs.length then sparse_write rest (regs.set i v) else none

/-- Embedding of the decoder `From<HyperLogLogVariant> for HyperLogLog<P>`:
`Empty` decodes through `new`; `Sparse` writes the listed pairs into a fresh
all-zero store of length `2^P` and wraps it with `with_registers`; `Full`
goes through `with_registers` directly. -/
def hll_from_variant (P : ℕ) : HLLVariant → Option (List ℕ)
  | .empty => hll_new P
  | .sparse data =>
    (sparse_write data (List.replicate (2 ^ P) 0)).bind (hll_with_registers P)
  | .full regs => hll_with_registers P regs

/-- Spec-side sparse data, following the claim's words: exactly the non-zero
registers as `(index, value)` pairs in ascending index order, the index being
the true register index. -/
def sparse_pairs_claimed (registers : List ℕ) : List (ℕ × ℕ) :=
  registers.enum.filterMap (fun p => if p.2 ≠ 0 then some p else none)

/-- Loop state of the `hll_sigma` iteration. -/
structure SigmaState where
  x : ℚ
  y : ℚ
  z : ℚ
deriving DecidableEq

/-- One iteration of the loop body of `hll_sigma` as written in the source:
`x *= x` first, then `z += x * y` (with the already squared `x`), then
`y += y`. -/
def sigma_body (s : SigmaState) : SigmaState :=
  { x := s.x * s.x, y := s.y + s.y, z := s.z + s.x * s.x * s.y }

/-- Embedding of the loop of `hll_sigma`, instrumented with fuel: run the
body and break with the current `z` when the update left `z` unchanged
(`z_prime == z`); `inl` carries the loop state when the fuel runs out before
the break (over `ℚ` the loop reaches no fixed point for `0 < x`, the break
being a property of float rounding). -/
def sigma_loop : ℕ → SigmaState → SigmaState ⊕ ℚ
  | 0, s => .inl s
  | n + 1, s =>
    let t := sigma_body s
    if t.z = s.z then .inr t.z else sigma_loop n t

/-- Embedding of `hll_sigma`: `+∞` at `x = 1`, otherwise the loop starting
from `x = input, y = 1, z = input`; a run that exhausts its fuel is `none`. -/
def hll_sigma (fuel : ℕ) (x : ℚ) : Option (WithTop ℚ) :=
  if x = 1 then some ⊤
  else
    match sigma_loop fuel ⟨x, 1, x⟩ with
    | .inr z => some (z : WithTop ℚ)
    | .inl _ => none

/-- Spec-side loop body, following the claim's words: `z += x*y; y += y;
x *= x`, in this order (`z` is updated with the not yet squared `x`). -/
def sigma_body_spec (s : SigmaState) : SigmaState :=
  { x := s.x * s.x, y := s.y + s.y, z := s.z + s.x * s.y }

/-- Spec-side loop, following the claim's words, with the same
instrumentation as `sigma_loop`: stop when an iteration leaves `z`
unchanged. -/
def sigma_loop_spec : ℕ → SigmaState → SigmaState ⊕ ℚ
  | 0, s => .inl s
  | n + 1, s =>
    let t := sigma_body_spec s
    if t.z = s.z then .inr t.z else sigma_loop_spec n t

/-- Register stores reachable through the public mutating API from `new`:
the all-zero store, `add_hash` updates with 64-bit hashes, and successful
merges of two reachable stores. -/
inductive Reachable (P : ℕ) : List ℕ → Prop where
  | init : Reachable P (List.replicate (2 ^ P) 0)
  | add {l : List ℕ} (hash : ℕ) : hash < 2 ^ 64 → Reachable P l →
      Reachable P (add_hash P l hash)
  | mrg {a b c : List ℕ} : Reachable P a → Reachable P b →
      merge a b = some c → Reachable P c

/-- Concrete precision-17 register store with a single non-zero register at
index `65536 = 2^16`, used to exercise the `index as u16` cast in the sparse
encoder. -/
def sBig : List ℕ := List.replicate 65536 0 ++ 1 :: List.replicate 65535 0

end SimpleHll

namespace SimpleHll

/-! ### Helper lemmas about `ctz` -/

theorem ctz_go_le_of_testBit :
    ∀ (q fuel n : ℕ), q < fuel → n.testBit q = true → ctz_go fuel n ≤ q := by
  intro q
  induction q with
  | zero =>
    intro fuel n hq h
    obtain ⟨f, rfl⟩ : ∃ f, fuel = f + 1 := ⟨fuel - 1, by omega⟩
    rw [Nat.testBit_zero] at h
    have ho := of_decide_eq_true h
    simp [ctz_go, ho]
  | succ q ih =>
    intro fuel n hq h
    obtain ⟨f, rfl⟩ : ∃ f, fuel = f + 1 := ⟨fuel - 1, by omega⟩
    rcases Nat.mod_two_eq_zero_or_one n with he | ho
    · rw [ctz_go, if_neg (by omega)]
      have hhalf : (n / 2).testBit q = true := by
        rw [← Nat.testBit_succ]
        exact h
      have := ih f (n / 2) (by omega) hhalf
      omega
    · rw [ctz_go, if_pos ho]
      exact Nat.zero_le _

/-- Any set bit below the fuel bound limits the trailing-zero count from
above. -/
theorem ctz_le_of_testBit (q n : ℕ) (hq : q < 64) (h : n.testBit q = true) :
    ctz n ≤ q :=
  ctz_go_le_of_testBit q 64 n hq h

/-- C1: for a sketch of precision `P` (`4 ≤ P ≤ 18`) and a 64-bit hash,
`add_hash` updates exactly the register at index `hash & (2^P - 1)`
(which equals `hash % 2^P`), setting it to the maximum of its old value and
`rank = trailing_zero_count((hash >> P) | (1 << (64 - P))) + 1`; this rank
always lies in `[1, Q + 1]` with `Q = 64 - P`, and all other registers are
unchanged. -/
theorem add_hash_spec (P : ℕ) (h4 : 4 ≤ P) (h18 : P ≤ 18) (regs : List ℕ)
    (hlen : regs.length = 2 ^ P) (hash : ℕ) (hh : hash < 2 ^ 64) :
    add_hash P regs hash =
      regs.set (hash % 2 ^ P)
        (max (regs.getD (hash % 2 ^ P) 0)
          (ctz ((hash / 2 ^ P) ||| 2 ^ (64 - P)) + 1)) ∧
    1 ≤ ctz ((hash / 2 ^ P) ||| 2 ^ (64 - P)) + 1 ∧
    ctz ((hash / 2 ^ P) ||| 2 ^ (64 - P)) + 1 ≤ (64 - P) + 1 ∧
    hash % 2 ^ P < regs.length ∧
    ∀ j, j ≠ hash % 2 ^ P →
      (add_hash P regs hash).getD j 0 = regs.getD j 0 := by
  have hshl : (1 : ℕ) <<< (64 - P) = 2 ^ (64 - P) := Nat.one_shiftLeft _
  have hshr : hash >>> P = hash / 2 ^ P := Nat.shiftRight_eq_div_pow _ _
  have hbit : ((hash / 2 ^ P) ||| 2 ^ (64 - P)).testBit (64 - P) = true := by
    rw [Nat.testBit_or, Nat.testBit_two_pow_self, Bool.or_true]
  have hctz : ctz ((hash / 2 ^ P) ||| 2 ^ (64 - P)) ≤ 64 - P :=
    ctz_le_of_testBit _ _ (by omega) hbit
  have hand : hash &&& (2 ^ P - 1) = hash % 2 ^ P :=
    Nat.and_pow_two_sub_one_eq_mod _ _
  have hmod256 : (ctz ((hash / 2 ^ P) ||| 2 ^ (64 - P)) + 1) % 256 =
      ctz ((hash / 2 ^ P) ||| 2 ^ (64 - P)) + 1 :=
    Nat.mod_eq_of_lt (by omega)
  have heq : add_hash P regs hash =
      regs.set (hash % 2 ^ P)
        (max (regs.getD (hash % 2 ^ P) 0)
          (ctz ((hash / 2 ^ P) ||| 2 ^ (64 - P)) + 1)) := by
    simp only [add_hash]
    rw [hshr, hshl, hand, hmod256]
  refine ⟨heq, by omega, by omega, ?_, ?_⟩
  · rw [hlen]
    exact Nat.mod_lt _ (Nat.pos_pow_of_pos _ (by decide))
  · intro j hj
    rw [heq]
    simp [List.getD_eq_getElem?_getD, List.getElem?_set_ne (Ne.symm hj)]

/-- Witness for C1 at `P = 4`, the all-zero store and hash `5`. -/
theorem add_hash_spec_witness :
    (List.replicate 16 (0 : ℕ)).length = 2 ^ 4 ∧ (5 : ℕ) < 2 ^ 64 ∧
    add_hash 4 (List.replicate 16 0) 5 =
      (List.replicate 16 (0 : ℕ)).set (5 % 2 ^ 4)
        (max ((List.replicate 16 (0 : ℕ)).getD (5 % 2 ^ 4) 0)
          (ctz ((5 / 2 ^ 4) ||| 2 ^ (64 - 4)) + 1)) :=
  ⟨by decide, by decide,
    (add_hash_spec 4 (by decide) (by decide) (List.replicate 16 0) (by decide)
      5 (by decide)).1⟩

/-! ### Helper lemmas about `merge` -/

/-- Closed form of the merge loop: it succeeds exactly when `other` is at
least as long as `self`, and then computes the pointwise maximum over
`self`'s indices. -/
theorem merge_eq (a b : List ℕ) :
    merge a b =
      if a.length ≤ b.length then some (List.zipWith max a b) else none := by
  induction a generalizing b with
  | nil => simp [merge]
  | cons x ta ih =>
    cases b with
    | nil => simp [merge]
    | cons y tb =>
      simp only [merge, ih, List.length_cons]
      by_cases h : ta.length ≤ tb.length
      · rw [if_pos h, if_pos (by omega)]
        simp [List.zipWith]
      · rw [if_neg h, if_neg (by omega)]
        simp

theorem zipWith_max_self (a : List ℕ) : List.zipWith max a a = a := by
  induction a with
  | nil => rfl
  | cons x ta ih => simp [List.zipWith, ih]

theorem zipWith_max_zero (a : List ℕ) :
    List.zipWith max a (List.replicate a.length 0) = a := by
  induction a with
  | nil => rfl
  | cons x ta ih => simp [List.zipWith, List.replicate_succ, ih]

theorem zipWith_max_assoc (a b c : List ℕ) :
    List.zipWith max (List.zipWith max a b) c =
      List.zipWith max a (List.zipWith max b c) := by
  induction a generalizing b c with
  | nil => simp
  | cons x ta ih =>
    cases b with
    | nil => simp
    | cons y tb =>
      cases c with
      | nil => simp
      | cons z tc => simp [List.zipWith, ih, max_assoc]

/-- C3: for register stores of equal length, `merge` computes the pointwise
maximum; it is commutative, associative (over equal-length stores),
idempotent, and the all-zero store is an identity. -/
theorem merge_spec (a b c : List ℕ) (hab : a.length = b.length)
    (hac : a.length = c.length) :
    (merge a b = some (List.zipWith max a b) ∧
      ∀ i, i < a.length →
        (List.zipWith max a b).getD i 0 = max (a.getD i 0) (b.getD i 0)) ∧
    merge a b = merge b a ∧
    (merge a b).bind (fun r => merge r c) =
      (merge b c).bind (fun r => merge a r) ∧
    merge a a = some a ∧
    merge a (List.replicate a.length 0) = some a := by
  have hlz : ∀ (u v : List ℕ), (List.zipWith max u v).length =
      min u.length v.length := by
    intro u v
    simp
  refine ⟨⟨?_, ?_⟩, ?_, ?_, ?_, ?_⟩
  · rw [merge_eq, if_pos (le_of_eq hab)]
  · intro i hi
    have hiz : i < (List.zipWith max a b).length := by
      rw [hlz]
      omega
    have hia : i < a.length := hi
    have hib : i < b.length := by omega
    simp only [List.getD_eq_getElem?_getD]
    rw [List.getElem?_eq_getElem hiz, List.getElem?_eq_getElem hia,
      List.getElem?_eq_getElem hib]
    show (List.zipWith max a b)[i] = max a[i] b[i]
    exact List.getElem_zipWith (h := hiz)
  · rw [merge_eq, merge_eq, if_pos (le_of_eq hab), if_pos (le_of_eq hab.symm),
      List.zipWith_comm_of_comm max max_comm]
  · rw [merge_eq a b, if_pos (le_of_eq hab), merge_eq b c,
      if_pos (le_of_eq (hab ▸ hac))]
    simp only [Option.some_bind]
    rw [merge_eq, merge_eq, if_pos, if_pos, zipWith_max_assoc]
    · rw [hlz]
      omega
    · rw [hlz]
      omega
  · rw [merge_eq, if_pos le_rfl, zipWith_max_self]
  · rw [merge_eq, if_pos (by simp), zipWith_max_zero]

/-- Witness for C3 on the concrete stores `[1, 5]`, `[3, 2]`, `[0, 7]`. -/
theorem merge_spec_witness :
    ([1, 5] : List ℕ).length = ([3, 2] : List ℕ).length ∧
    ([1, 5] : List ℕ).length = ([0, 7] : List ℕ).length ∧
    merge [1, 5] [3, 2] = merge [3, 2] [1, 5] ∧
    merge [1, 5] [1, 5] = some [1, 5] := by
  have h := merge_spec [1, 5] [3, 2] [0, 7] (by decide) (by decide)
  exact ⟨by decide, by decide, h.2.1, h.2.2.2.1⟩

theorem zipWith_max_append_right (a b t : List ℕ) (h : a.length ≤ b.length) :
    List.zipWith max a (b ++ t) = List.zipWith max a b := by
  induction a generalizing b with
  | nil => simp
  | cons x ta ih =>
    cases b with
    | nil => simp at h
    | cons y tb =>
      simp only [List.cons_append, List.zipWith_cons_cons]
      rw [ih tb (by simpa using h)]

/-- C6 counterexample: merging a store of length 1 with a store of length 2
raises no error at all; the loop completes and silently ignores the second
register of `other` (merging only a prefix), contradicting the claimed
fail-fast length check. -/
theorem merge_mismatch_counterexample : merge [0] [5, 7] = some [5] := by decide

/-- C6 amended: `merge` performs no explicit length check.  It iterates over
`self`'s indices: it succeeds exactly when `other` is at least as long as
`self`, in which case any surplus registers of `other` are silently ignored
(the result does not depend on them); only when `other` is strictly shorter
does the operation abort, via the out-of-bounds panic of the indexing
itself. -/
theorem merge_no_length_check (a b t : List ℕ) :
    ((merge a b).isSome ↔ a.length ≤ b.length) ∧
    (a.length ≤ b.length → merge a (b ++ t) = merge a b) ∧
    (b.length < a.length → merge a b = none) := by
  refine ⟨?_, ?_, ?_⟩
  · rw [merge_eq]
    by_cases h : a.length ≤ b.length
    · simp [h]
    · simp [h]
  · intro h
    rw [merge_eq, merge_eq, if_pos h,
      if_pos (le_trans h (by simp)), zipWith_max_append_right a b t h]
  · intro h
    rw [merge_eq, if_neg (by omega)]

/-- Witness for C6 amended on concrete stores: a strictly shorter `other`
aborts, and appending a surplus register to `other` leaves the result
unchanged. -/
theorem merge_no_length_check_witness :
    merge [0, 0] [5] = none ∧ merge [0] ([5] ++ [7]) = merge [0] [5] := by
  have h1 := merge_no_length_check [0, 0] [5] []
  have h2 := merge_no_length_check [0] [5] [7]
  exact ⟨h1.2.2 (by decide), h2.2.1 (by decide)⟩

/-- The code's descending slice iteration equals the spec's countdown
recursion. -/
theorem foldl_reverse_range_eq_spec_fold (hist : List ℕ) (q : ℕ) (z : ℚ) :
    ((List.range' 1 q).reverse).foldl
      (fun (z : ℚ) i => (z + (hist.getD i 0 : ℕ)) * (1 / 2)) z =
      spec_fold hist q z := by
  induction q generalizing z with
  | zero => rfl
  | succ q ih =>
    rw [List.range'_1_concat, List.reverse_append]
    simp only [List.reverse_cons, List.reverse_nil, List.nil_append,
      List.singleton_append, List.foldl_cons]
    rw [ih]
    show spec_fold hist q ((z + (hist.getD (1 + q) 0 : ℕ)) * (1 / 2)) = _
    rw [Nat.add_comm 1 q]
    rfl

/-- C2: `count` returns `round((0.5 / ln 2) * m * m / z)` with `z`
accumulated exactly as the spec describes: `z = m * tau((m - hist[q+1])/m)`,
then the fold `z = (z + hist[i]) * 0.5` for `i` from `q` strictly down to
`1`, then `z = z + m * sigma(hist[0]/m)`.  Float arithmetic is carried over
`ℚ`; `tau`, `sigma` and `ln 2` enter as parameters since `count` only
composes their results. -/
theorem count_matches_spec (P : ℕ) (registers : List ℕ) (tau sigma : ℚ → ℚ)
    (ln2 : ℚ) :
    hll_count P registers tau sigma ln2 =
      (get_histogram registers).map
        (fun hist => count_from_histogram_spec P hist tau sigma ln2) := by
  have hfun : ∀ hist, count_from_histogram P hist tau sigma ln2 =
      count_from_histogram_spec P hist tau sigma ln2 := by
    intro hist
    simp only [count_from_histogram, count_from_histogram_spec]
    rw [foldl_reverse_range_eq_spec_fold]
  unfold hll_count
  cases get_histogram registers with
  | none => rfl
  | some hist => exact congrArg some (hfun hist)

/-- C8 counterexample: starting from `x = 1/2, y = 1, z = 1/2`, one
iteration of the code's loop yields `z = 1/2 + (1/2)^2 = 3/4` (the source
squares `x` before accumulating `z += x * y`), while one iteration in the
claimed order `z += x*y; y += y; x *= x` yields `z = 1/2 + 1/2 = 1`. -/
theorem sigma_order_counterexample :
    sigma_loop 1 ⟨1 / 2, 1, 1 / 2⟩ ≠ sigma_loop_spec 1 ⟨1 / 2, 1, 1 / 2⟩ := by
  have h1 : sigma_loop 1 ⟨1 / 2, 1, 1 / 2⟩ = .inl ⟨1 / 4, 2, 3 / 4⟩ := by
    norm_num [sigma_loop, sigma_body]
  have h2 : sigma_loop_spec 1 ⟨1 / 2, 1, 1 / 2⟩ = .inl ⟨1 / 4, 2, 1⟩ := by
    norm_num [sigma_loop_spec, sigma_body_spec]
  rw [h1, h2]
  intro hcontra
  simp only [Sum.inl.injEq, SigmaState.mk.injEq] at hcontra
  norm_num at hcontra

/-- Shifted closed form of the `hll_sigma` loop state: for `0 < x` the
break condition never fires over `ℚ`, and `n` further iterations advance the
state reached after `i` iterations to the one after `i + n`. -/
theorem sigma_loop_shift (x : ℚ) (hx : 0 < x) :
    ∀ (n i : ℕ),
      sigma_loop n
        ⟨x ^ 2 ^ i, 2 ^ i,
          x + ∑ k in Finset.range i, 2 ^ k * x ^ 2 ^ (k + 1)⟩ =
      .inl ⟨x ^ 2 ^ (i + n), 2 ^ (i + n),
        x + ∑ k in Finset.range (i + n), 2 ^ k * x ^ 2 ^ (k + 1)⟩ := by
  intro n
  induction n with
  | zero =>
    intro i
    simp [sigma_loop]
  | succ n ih =>
    intro i
    have hexp : 2 ^ (i + 1) = 2 ^ i + 2 ^ i := by
      rw [pow_succ]
      omega
    have hbody : sigma_body
        ⟨x ^ 2 ^ i, 2 ^ i,
          x + ∑ k in Finset.range i, 2 ^ k * x ^ 2 ^ (k + 1)⟩ =
        ⟨x ^ 2 ^ (i + 1), 2 ^ (i + 1),
          x + ∑ k in Finset.range (i + 1), 2 ^ k * x ^ 2 ^ (k + 1)⟩ := by
      simp only [sigma_body, SigmaState.mk.injEq]
      refine ⟨?_, ?_, ?_⟩
      · rw [← pow_add, hexp]
      · rw [pow_succ]
        ring
      · rw [Finset.sum_range_succ, ← pow_add, ← hexp]
        ring
    simp only [sigma_loop]
    rw [hbody, if_neg]
    · have harith : i + (n + 1) = (i + 1) + n := by omega
      rw [harith]
      exact ih (i + 1)
    · show x + ∑ k in Finset.range (i + 1), 2 ^ k * x ^ 2 ^ (k + 1) ≠
        x + ∑ k in Finset.range i, 2 ^ k * x ^ 2 ^ (k + 1)
      rw [Finset.sum_range_succ]
      have hterm : (0 : ℚ) < 2 ^ i * x ^ 2 ^ (i + 1) := by positivity
      intro hcontra
      have := add_left_cancel hcontra
      linarith

/-- C8 amended: `hll_sigma` returns `+∞` at `x = 1`; otherwise, starting
from `x = input, y = 1, z = input`, each iteration performs, in this order,
`x *= x`, then `z += x * y` (using the squared `x`), then `y += y`, and the
loop stops when the `z` update leaves `z` unchanged.  Over exact rationals
with `0 < x` the break never fires and after `n` iterations the state is
`x^(2^n), 2^n, x + sum of 2^k * x^(2^(k+1)) for k < n` — the accumulation
order of the source, not the claimed one. -/
theorem hll_sigma_amended (x : ℚ) (hx : 0 < x) (n : ℕ) :
    hll_sigma n 1 = some ⊤ ∧
    sigma_loop n ⟨x, 1, x⟩ =
      .inl ⟨x ^ 2 ^ n, 2 ^ n,
        x + ∑ k in Finset.range n, 2 ^ k * x ^ 2 ^ (k + 1)⟩ := by
  constructor
  · rw [hll_sigma, if_pos rfl]
  · have h := sigma_loop_shift x hx n 0
    simp only [pow_zero, pow_one, Finset.range_zero, Finset.sum_empty,
      add_zero, Nat.zero_add] at h
    exact h

/-- Witness for C8 amended at `x = 1/2`, `n = 2`. -/
theorem hll_sigma_amended_witness :
    (0 : ℚ) < 1 / 2 ∧
    (hll_sigma 2 1 = some ⊤ ∧
      sigma_loop 2 ⟨1 / 2, 1, 1 / 2⟩ =
        .inl ⟨(1 / 2 : ℚ) ^ 2 ^ 2, 2 ^ 2,
          1 / 2 + ∑ k in Finset.range 2, 2 ^ k * (1 / 2 : ℚ) ^ 2 ^ (k + 1)⟩) :=
  ⟨by norm_num, hll_sigma_amended (1 / 2) (by norm_num) 2⟩

/-! ### Helper lemmas about the variant codec -/

theorem enum_eq_enumFrom {α : Type} (l : List α) : l.enum = l.enumFrom 0 := rfl

theorem filterMap_if_eq_filter (l : List (ℕ × ℕ)) :
    l.filterMap (fun p => if p.2 ≠ 0 then some p else none) =
      l.filter (fun p => p.2 != 0) := by
  induction l with
  | nil => rfl
  | cons hd tl ih =>
    by_cases h : hd.2 = 0
    · simpa [List.filterMap_cons, List.filter_cons, h] using ih
    · simpa [List.filterMap_cons, List.filter_cons, h] using ih

theorem sparse_pairs_claimed_eq_filter (regs : List ℕ) :
    sparse_pairs_claimed regs = regs.enum.filter (fun p => p.2 != 0) :=
  filterMap_if_eq_filter _

/-- The pairs actually emitted are the spec's pairs with the index truncated
by the `as u16` cast. -/
theorem sparse_pairs_eq_map (regs : List ℕ) :
    sparse_pairs regs =
      (sparse_pairs_claimed regs).map (fun p => (p.1 % 65536, p.2)) := by
  unfold sparse_pairs sparse_pairs_claimed
  rw [List.map_filterMap]
  congr 1
  funext p
  by_cases h : p.2 = 0
  · simp [h]
  · simp [h]

theorem mem_sparse_pairs_claimed (regs : List ℕ) (i v : ℕ) :
    (i, v) ∈ sparse_pairs_claimed regs ↔
      i < regs.length ∧ regs.getD i 0 = v ∧ v ≠ 0 := by
  rw [sparse_pairs_claimed_eq_filter, List.mem_filter,
    List.mem_enum_iff_getElem?]
  constructor
  · rintro ⟨hget, hv⟩
    obtain ⟨hlt, _⟩ := List.getElem?_eq_some.mp hget
    refine ⟨hlt, ?_, by simpa using hv⟩
    rw [List.getD_eq_getElem?_getD, hget]
    rfl
  · rintro ⟨hlt, hgd, hv⟩
    refine ⟨?_, by simpa using hv⟩
    rw [List.getElem?_eq_some]
    refine ⟨hlt, ?_⟩
    rw [List.getD_eq_getElem?_getD, List.getElem?_eq_getElem hlt] at hgd
    simpa using hgd

/-- When every register index fits in 16 bits (`m ≤ 2^16`, i.e. `P ≤ 16`),
the cast is the identity and the emitted pairs are exactly the spec's. -/
theorem sparse_pairs_eq_claimed_of_small (regs : List ℕ)
    (hsmall : regs.length ≤ 65536) :
    sparse_pairs regs = sparse_pairs_claimed regs := by
  rw [sparse_pairs_eq_map]
  have hcongr : ∀ p ∈ sparse_pairs_claimed regs,
      (fun p : ℕ × ℕ => (p.1 % 65536, p.2)) p = id p := by
    intro p hp
    obtain ⟨i, v⟩ := p
    rw [mem_sparse_pairs_claimed] at hp
    have hi : i < 65536 := by omega
    simp [Nat.mod_eq_of_lt hi]
  rw [List.map_congr_left hcongr, List.map_id]

theorem sparse_pairs_claimed_sorted (regs : List ℕ) :
    List.Pairwise (· < ·) ((sparse_pairs_claimed regs).map Prod.fst) := by
  rw [sparse_pairs_claimed_eq_filter]
  have hsub : List.Sublist
      ((regs.enum.filter (fun p => p.2 != 0)).map Prod.fst)
      (regs.enum.map Prod.fst) := (List.filter_sublist _).map _
  rw [List.enum_map_fst] at hsub
  exact List.Pairwise.sublist hsub (List.pairwise_lt_range _)

theorem sparse_write_isSome :
    ∀ (data : List (ℕ × ℕ)) (regs : List ℕ),
      (sparse_write data regs).isSome ↔ ∀ p ∈ data, p.1 < regs.length := by
  intro data
  induction data with
  | nil =>
    intro regs
    simp [sparse_write]
  | cons hd tl ih =>
    intro regs
    obtain ⟨i, v⟩ := hd
    by_cases h : i < regs.length
    · rw [sparse_write, if_pos h, ih (regs.set i v)]
      simp [h]
    · rw [sparse_write, if_neg h]
      simp [List.forall_mem_cons, h]

theorem sparse_write_length :
    ∀ (data : List (ℕ × ℕ)) (regs r : List ℕ),
      sparse_write data regs = some r → r.length = regs.length := by
  intro data
  induction data with
  | nil =>
    intro regs r h
    simp only [sparse_write, Option.some.injEq] at h
    rw [← h]
  | cons hd tl ih =>
    intro regs r h
    obtain ⟨i, v⟩ := hd
    by_cases hlt : i < regs.length
    · rw [sparse_write, if_pos hlt] at h
      have := ih _ _ h
      simpa using this
    · rw [sparse_write, if_neg hlt] at h
      simp at h

theorem set_middle (A C : List ℕ) (x v : ℕ) :
    (A ++ x :: C).set A.length v = A ++ v :: C := by
  rw [List.set_append_right _ _ le_rfl]
  simp

/-- Writing the non-zero `(index, value)` pairs of `l` (enumerated from
offset `A.length`) into a store that is all-zero beyond the prefix `A`
reconstructs `A ++ l`. -/
theorem sparse_write_enumFrom :
    ∀ (l A : List ℕ),
      sparse_write
        ((List.enumFrom A.length l).filterMap
          (fun p => if p.2 ≠ 0 then some p else none))
        (A ++ List.replicate l.length 0) = some (A ++ l) := by
  intro l
  induction l with
  | nil =>
    intro A
    simp [sparse_write]
  | cons v rest ih =>
    intro A
    rw [List.enumFrom_cons]
    by_cases hv : v = 0
    · subst hv
      rw [List.filterMap_cons_none (by simp)]
      have := ih (A ++ [0])
      simpa [List.replicate_succ, List.append_assoc] using this
    · rw [List.filterMap_cons_some (show _ = some (A.length, v) by simp [hv])]
      rw [sparse_write]
      simp only [List.length_cons, List.replicate_succ]
      rw [if_pos (by simp only [List.length_append, List.length_cons]; omega)]
      rw [set_middle A (List.replicate rest.length 0) 0 v]
      have := ih (A ++ [v])
      simpa [List.append_assoc] using this

/-- Writing the spec's sparse pairs into a fresh all-zero store of the same
length reconstructs the store. -/
theorem sparse_write_claimed (regs : List ℕ) :
    sparse_write (sparse_pairs_claimed regs)
      (List.replicate regs.length 0) = some regs := by
  have := sparse_write_enumFrom regs []
  simpa [sparse_pairs_claimed, enum_eq_enumFrom] using this

theorem num_empty_eq_countP (l : List ℕ) :
    num_empty_registers l = l.countP (fun x => x == 0) := by
  rw [List.countP_eq_length_filter]
  rfl

theorem num_empty_le_length (l : List ℕ) :
    num_empty_registers l ≤ l.length := by
  rw [num_empty_eq_countP]
  exact List.countP_le_length (fun x => x == 0)

/-- A store in which every register is counted empty is the all-zero
store. -/
theorem eq_replicate_of_num_empty (l : List ℕ)
    (h : l.length ≤ num_empty_registers l) :
    l = List.replicate l.length 0 := by
  rw [num_empty_eq_countP] at h
  have heq : l.countP (fun x => x == 0) = l.length :=
    le_antisymm (List.countP_le_length (fun x => x == 0)) h
  rw [List.eq_replicate_iff]
  refine ⟨rfl, ?_⟩
  intro b hb
  have := List.countP_eq_length.mp heq b hb
  simpa using this

/-- C4 amended: for every sketch of precision `P ≤ 16` — so that every
register index fits the 16-bit sparse index — decoding the variant produced
by encoding the sketch yields exactly the original register sequence,
regardless of which of the three variants the encoder chose. -/
theorem roundtrip_spec (P : ℕ) (h4 : 4 ≤ P) (h16 : P ≤ 16) (regs : List ℕ)
    (hlen : regs.length = 2 ^ P) :
    hll_from_variant P (hll_variant_of P regs) = some regs := by
  have hP18 : P ≤ 18 := by omega
  simp only [hll_variant_of]
  by_cases h0 : 2 ^ P - num_empty_registers regs = 0
  · rw [if_pos h0]
    have hne : regs.length ≤ num_empty_registers regs := by
      have := num_empty_le_length regs
      omega
    have hempty : regs = List.replicate (2 ^ P) 0 := by
      have h1 := eq_replicate_of_num_empty regs hne
      rw [hlen] at h1
      exact h1
    show hll_from_variant P .empty = some regs
    simp only [hll_from_variant, hll_new]
    rw [if_pos ⟨h4, hP18⟩, hempty]
  · rw [if_neg h0]
    by_cases h3 : (2 ^ P - num_empty_registers regs) * 3 ≤ 2 ^ P
    · rw [if_pos h3]
      show hll_from_variant P (.sparse (sparse_pairs regs)) = some regs
      simp only [hll_from_variant]
      have hsmall : regs.length ≤ 65536 := by
        rw [hlen]
        calc 2 ^ P ≤ 2 ^ 16 := Nat.pow_le_pow_right (by norm_num) h16
        _ = 65536 := by norm_num
      rw [sparse_pairs_eq_claimed_of_small regs hsmall, ← hlen,
        sparse_write_claimed]
      show hll_with_registers P regs = some regs
      rw [hll_with_registers, if_pos hlen]
    · rw [if_neg h3]
      show hll_from_variant P (.full regs) = some regs
      simp only [hll_from_variant, hll_with_registers]
      rw [if_pos hlen]

/-- Witness for C4 amended at `P = 4` with one non-zero register (the
encoder chooses `Sparse` here). -/
theorem roundtrip_spec_witness :
    (4 : ℕ) ≤ 4 ∧ (4 : ℕ) ≤ 16 ∧
    (3 :: List.replicate 15 0 : List ℕ).length = 2 ^ 4 ∧
    hll_from_variant 4 (hll_variant_of 4 (3 :: List.replicate 15 0)) =
      some (3 :: List.replicate 15 0) :=
  ⟨by decide, by decide, by decide,
    roundtrip_spec 4 (by decide) (by decide) (3 :: List.replicate 15 0)
      (by decide)⟩

theorem filterMap_enumFrom_replicate_none
    (f : ℕ × ℕ → Option (ℕ × ℕ)) (hf : ∀ k, f (k, 0) = none) :
    ∀ (n k : ℕ),
      List.filterMap f (List.enumFrom k (List.replicate n 0)) = [] := by
  intro n
  induction n with
  | zero =>
    intro k
    rfl
  | succ n ih =>
    intro k
    rw [List.replicate_succ, List.enumFrom_cons,
      List.filterMap_cons_none (hf k), ih (k + 1)]

theorem sparse_pairs_sBig : sparse_pairs sBig = [(0, 1)] := by
  unfold sparse_pairs sBig
  rw [enum_eq_enumFrom, List.enumFrom_append, List.filterMap_append,
    filterMap_enumFrom_replicate_none _ (fun k => by simp) 65536 0]
  simp only [List.length_replicate, Nat.zero_add, List.nil_append]
  rw [List.enumFrom_cons,
    List.filterMap_cons_some (show _ = some (65536 % 65536, 1) by simp),
    filterMap_enumFrom_replicate_none _ (fun k => by simp) 65535 (65536 + 1)]

theorem sparse_pairs_claimed_sBig :
    sparse_pairs_claimed sBig = [(65536, 1)] := by
  unfold sparse_pairs_claimed sBig
  rw [enum_eq_enumFrom, List.enumFrom_append, List.filterMap_append,
    filterMap_enumFrom_replicate_none _ (fun k => by simp) 65536 0]
  simp only [List.length_replicate, Nat.zero_add, List.nil_append]
  rw [List.enumFrom_cons,
    List.filterMap_cons_some (show _ = some (65536, 1) by simp),
    filterMap_enumFrom_replicate_none _ (fun k => by simp) 65535 (65536 + 1)]

theorem num_empty_sBig : num_empty_registers sBig = 131071 := by
  rw [num_empty_eq_countP]
  unfold sBig
  rw [List.countP_append, List.countP_cons_of_neg _ _ (by decide),
    List.countP_replicate, List.countP_replicate]
  norm_num

theorem variant_of_sBig : hll_variant_of 17 sBig = .sparse [(0, 1)] := by
  have h1 : 2 ^ 17 - num_empty_registers sBig = 1 := by
    rw [num_empty_sBig]
    norm_num
  simp only [hll_variant_of, h1]
  norm_num [sparse_pairs_sBig]

theorem hll_with_registers_of_length {P : ℕ} {regs : List ℕ}
    (h : regs.length = 2 ^ P) : hll_with_registers P regs = some regs := by
  rw [hll_with_registers, if_pos h]

theorem decode_sparse_one :
    hll_from_variant 17 (.sparse [(0, 1)]) =
      some (1 :: List.replicate 131071 0) := by
  have hd : (1 :: List.replicate 131071 (0 : ℕ)).length = 2 ^ 17 := by
    rw [List.length_cons, List.length_replicate]
    norm_num
  have hpairs : sparse_pairs_claimed (1 :: List.replicate 131071 0) =
      [(0, 1)] := by
    unfold sparse_pairs_claimed
    rw [enum_eq_enumFrom, List.enumFrom_cons,
      List.filterMap_cons_some (show _ = some (0, 1) by simp),
      filterMap_enumFrom_replicate_none _ (fun k => by simp) 131071 (0 + 1)]
  have hkey : sparse_write [(0, 1)] (List.replicate (2 ^ 17) 0) =
      some (1 :: List.replicate 131071 0) := by
    have h := sparse_write_claimed (1 :: List.replicate 131071 0)
    rw [hpairs, List.length_cons, List.length_replicate,
      show (131071 : ℕ) + 1 = 2 ^ 17 from by norm_num] at h
    exact h
  simp only [hll_from_variant]
  rw [hkey, Option.some_bind]
  exact hll_with_registers_of_length hd

/-- C4 counterexample: at precision `P = 17` the sketch with a single
non-zero register at index `65536 = 2^16` has length `2^17`, is encoded
`Sparse` with its index truncated by the `as u16` cast to `0`, and decodes
to a sketch whose register 0 — not register 65536 — holds the value: the
round trip does not return the original register sequence. -/
theorem roundtrip_counterexample :
    sBig.length = 2 ^ 17 ∧
    hll_from_variant 17 (hll_variant_of 17 sBig) ≠ some sBig := by
  constructor
  · unfold sBig
    rw [List.length_append, List.length_cons, List.length_replicate,
      List.length_replicate]
    norm_num
  · rw [variant_of_sBig, decode_sparse_one]
    intro hcontra
    have hlists : 1 :: List.replicate 131071 0 = sBig :=
      Option.some.inj hcontra
    have h0 : (1 :: List.replicate 131071 0).getD 0 0 = sBig.getD 0 0 :=
      congrArg (fun l : List ℕ => l.getD 0 0) hlists
    have hsBig : sBig.getD 0 0 = 0 := by
      unfold sBig
      rw [show (65536 : ℕ) = 65535 + 1 from by norm_num, List.replicate_succ,
        List.cons_append, List.getD_cons_zero]
    rw [List.getD_cons_zero, hsBig] at h0
    exact absurd h0 one_ne_zero

/-- C5 counterexample: at precision `P = 17` the sketch with its single
non-zero register at index `65536` is encoded as `Sparse [(0, 1)]` — the
stored pair does not name the non-zero register 65536 (its index was
truncated mod `2^16` by the `as u16` cast), so the emitted data is not the
claimed list of `(index, value)` pairs of the non-zero registers. -/
theorem sparse_data_counterexample :
    hll_variant_of 17 sBig = .sparse [(0, 1)] ∧
    sparse_pairs_claimed sBig = [(65536, 1)] ∧
    hll_variant_of 17 sBig ≠ .sparse (sparse_pairs_claimed sBig) := by
  refine ⟨variant_of_sBig, sparse_pairs_claimed_sBig, ?_⟩
  rw [variant_of_sBig, sparse_pairs_claimed_sBig]
  intro h
  simp only [HLLVariant.sparse.injEq, List.cons.injEq, Prod.mk.injEq] at h
  exact absurd h.1.1 (by norm_num)

/-- C5 amended: the variant is selected purely from
`non_empty = m - num_empty_registers()` with the claimed thresholds
(`0` gives `Empty`, `non_empty * 3 ≤ m` gives `Sparse`, otherwise `Full`, so
`non_empty * 3 = m` chooses `Sparse` and `non_empty * 3 = m + 1` chooses
`Full`); the `Sparse` data lists exactly the non-zero registers, in
ascending order of the true index, but stores each index reduced mod `2^16`
by the `as u16` cast — the index equals the true register index only when it
is below `2^16` (in particular always when `P ≤ 16`). -/
theorem variant_selection_spec (P : ℕ) (h4 : 4 ≤ P) (h18 : P ≤ 18)
    (regs : List ℕ) (hlen : regs.length = 2 ^ P) :
    (2 ^ P - num_empty_registers regs = 0 →
      hll_variant_of P regs = .empty) ∧
    (2 ^ P - num_empty_registers regs ≠ 0 →
      (2 ^ P - num_empty_registers regs) * 3 ≤ 2 ^ P →
      hll_variant_of P regs = .sparse (sparse_pairs regs)) ∧
    (2 ^ P < (2 ^ P - num_empty_registers regs) * 3 →
      hll_variant_of P regs = .full regs) ∧
    sparse_pairs regs =
      (sparse_pairs_claimed regs).map (fun p => (p.1 % 65536, p.2)) ∧
    (P ≤ 16 → sparse_pairs regs = sparse_pairs_claimed regs) ∧
    List.Pairwise (· < ·) ((sparse_pairs_claimed regs).map Prod.fst) ∧
    (∀ i v, (i, v) ∈ sparse_pairs_claimed regs ↔
      i < regs.length ∧ regs.getD i 0 = v ∧ v ≠ 0) := by
  refine ⟨?_, ?_, ?_, sparse_pairs_eq_map regs, ?_,
    sparse_pairs_claimed_sorted regs,
    fun i v => mem_sparse_pairs_claimed regs i v⟩
  · intro h0
    simp only [hll_variant_of]
    rw [if_pos h0]
  · intro h0 h3
    simp only [hll_variant_of]
    rw [if_neg h0, if_pos h3]
  · intro h3
    have h0 : 2 ^ P - num_empty_registers regs ≠ 0 := by
      intro hz
      rw [hz, Nat.zero_mul] at h3
      exact absurd h3 (Nat.not_lt_zero _)
    simp only [hll_variant_of]
    rw [if_neg h0, if_neg (by omega)]
  · intro h16
    refine sparse_pairs_eq_claimed_of_small regs ?_
    rw [hlen]
    calc 2 ^ P ≤ 2 ^ 16 := Nat.pow_le_pow_right (by norm_num) h16
    _ = 65536 := by norm_num

/-- Witness for C5 amended at `P = 4` with one non-zero register: the
encoder picks `Sparse` and the pairs carry the true indices. -/
theorem variant_selection_spec_witness :
    hll_variant_of 4 (3 :: List.replicate 15 0) =
      .sparse (sparse_pairs (3 :: List.replicate 15 0)) ∧
    sparse_pairs (3 :: List.replicate 15 0) =
      sparse_pairs_claimed (3 :: List.replicate 15 0) := by
  have h := variant_selection_spec 4 (by decide) (by decide)
    (3 :: List.replicate 15 0) (by decide)
  exact ⟨h.2.1 (by decide) (by decide), h.2.2.2.2.1 (by decide)⟩

/-- C7 counterexample: decoding `Sparse` data with index `16` at precision
`P = 4` (`m = 16`) hits the unvalidated write `registers[16]`, an
index-out-of-bounds panic (modelled `none`) — the `From` conversion has no
error channel through which an explicit decode error could be returned. -/
theorem sparse_decode_oob_counterexample :
    hll_from_variant 4 (.sparse [(16, 1)]) = none := by decide

/-- C7 amended: sparse decoding performs no index validation; it writes each
listed pair in turn, and an index at or beyond `m = 2^P` aborts the
conversion through the out-of-bounds indexing panic itself (the `From`
conversion returns no error), so decoding succeeds exactly when every
listed index is below `m`; on failure no sketch is produced at all, so no
partially mutated sketch is observable. -/
theorem sparse_decode_validation (P : ℕ) (data : List (ℕ × ℕ)) :
    (hll_from_variant P (.sparse data)).isSome ↔
      ∀ p ∈ data, p.1 < 2 ^ P := by
  have hiff := sparse_write_isSome data (List.replicate (2 ^ P) 0)
  rw [List.length_replicate] at hiff
  simp only [hll_from_variant]
  cases hsw : sparse_write data (List.replicate (2 ^ P) 0) with
  | none =>
    rw [hsw] at hiff
    simpa using hiff
  | some r =>
    rw [hsw] at hiff
    have hr : r.length = 2 ^ P := by
      have := sparse_write_length data _ r hsw
      rw [this, List.length_replicate]
    rw [Option.some_bind, hll_with_registers_of_length hr]
    simpa using hiff

/-- Witness for C7 amended: an in-range sparse payload decodes
successfully at `P = 4`. -/
theorem sparse_decode_validation_witness :
    (hll_from_variant 4 (.sparse [(15, 7)])).isSome :=
  (sparse_decode_validation 4 [(15, 7)]).mpr (by decide)

/-! ### Helper lemmas for the register-value invariant -/

theorem getD_le_of_forall {l : List ℕ} {B d : ℕ} (i : ℕ)
    (hall : ∀ r ∈ l, r ≤ B) (hd : d ≤ B) : l.getD i d ≤ B := by
  rw [List.getD_eq_getElem?_getD]
  cases hl : l[i]? with
  | none => simpa using hd
  | some v =>
    have hv : v ∈ l := List.getElem?_mem hl
    simpa using hall v hv

theorem mem_zipWith_max :
    ∀ {a b : List ℕ} {r : ℕ}, r ∈ List.zipWith max a b →
      ∃ x ∈ a, ∃ y ∈ b, r = max x y := by
  intro a
  induction a with
  | nil =>
    intro b r h
    simp at h
  | cons x ta ih =>
    intro b r h
    cases b with
    | nil => simp at h
    | cons y tb =>
      rw [List.zipWith_cons_cons] at h
      rcases List.mem_cons.mp h with h1 | h2
      · exact ⟨x, List.mem_cons_self _ _, y, List.mem_cons_self _ _, h1⟩
      · obtain ⟨u, hu, w, hw, hr⟩ := ih h2
        exact ⟨u, List.mem_cons_of_mem _ hu, w, List.mem_cons_of_mem _ hw, hr⟩

/-- Every register of a store reachable through `new`, `add_hash` and
`merge` is at most `Q + 1 = (64 - P) + 1`. -/
theorem reachable_le (P : ℕ) (h4 : 4 ≤ P) {regs : List ℕ}
    (hreach : Reachable P regs) : ∀ r ∈ regs, r ≤ (64 - P) + 1 := by
  induction hreach with
  | init =>
    intro r hr
    have := List.eq_of_mem_replicate hr
    omega
  | @add l hash hlt hprev ih =>
    have hrank :
        (ctz ((hash >>> P) ||| (1 <<< (64 - P))) + 1) % 256 ≤ (64 - P) + 1 := by
      have hb : ((hash >>> P) ||| (1 <<< (64 - P))).testBit (64 - P) = true := by
        rw [Nat.one_shiftLeft, Nat.testBit_or, Nat.testBit_two_pow_self,
          Bool.or_true]
      have h1 := ctz_le_of_testBit (64 - P) _ (by omega) hb
      have h2 := Nat.mod_le (ctz ((hash >>> P) ||| (1 <<< (64 - P))) + 1) 256
      omega
    intro r hr
    simp only [add_hash] at hr
    rcases List.mem_or_eq_of_mem_set hr with hmem | heq
    · exact ih r hmem
    · rw [heq]
      exact max_le (getD_le_of_forall _ ih (by omega)) hrank
  | @mrg a b c ha hb hm iha ihb =>
    rw [merge_eq] at hm
    by_cases hab : a.length ≤ b.length
    · rw [if_pos hab] at hm
      have hc : c = List.zipWith max a b := (Option.some.inj hm).symm
      intro r hr
      rw [hc] at hr
      obtain ⟨x, hx, y, hy, hrxy⟩ := mem_zipWith_max hr
      rw [hrxy]
      exact max_le (iha x hx) (ihb y hy)
    · rw [if_neg hab] at hm
      exact absurd hm (by simp)

/-- C9 counterexample: `with_registers` accepts a store whose registers hold
`62 > 61 ≥ Q + 1`, so a sketch obtained through `with_registers` can violate
the claimed bound. -/
theorem register_bound_counterexample :
    hll_with_registers 4 (List.replicate 16 62) =
      some (List.replicate 16 62) ∧
    (62 : ℕ) ∈ List.replicate 16 62 ∧ ¬(62 : ℕ) ≤ (64 - 4) + 1 := by
  refine ⟨hll_with_registers_of_length (by decide), by decide, by decide⟩

/-- C9 amended: every sketch obtained from `new` through any sequence of
`add_hash` (with 64-bit hashes) and successful merges of such sketches has
every register value in `[0, Q + 1]`; `with_registers` and variant decoding
perform no such validation and can produce stores that violate the bound. -/
theorem reachable_register_bound (P : ℕ) (h4 : 4 ≤ P) (regs : List ℕ)
    (hreach : Reachable P regs) : ∀ r ∈ regs, r ≤ (64 - P) + 1 :=
  reachable_le P h4 hreach

/-- Witness for C9 amended: the register written by `add_hash 0` into a
fresh precision-4 sketch respects the bound. -/
theorem reachable_register_bound_witness :
    (add_hash 4 (List.replicate 16 0) 0).getD 0 0 ≤ (64 - 4) + 1 := by
  have h := reachable_register_bound 4 (by decide)
    (add_hash 4 (List.replicate 16 0) 0)
    (Reachable.add 0 (by decide) Reachable.init)
  exact h _ (by decide)

theorem hist_go_isSome :
    ∀ (l acc : List ℕ), (hist_go l acc).isSome ↔ ∀ r ∈ l, r < acc.length := by
  intro l
  induction l with
  | nil =>
    intro acc
    simp [hist_go]
  | cons r rest ih =>
    intro acc
    by_cases h : r < acc.length
    · rw [hist_go, if_pos h, ih]
      simp [h, List.length_set]
    · rw [hist_go, if_neg h]
      simp [List.forall_mem_cons, h]

/-- C10: `count` indexes its 64-slot histogram with each register value, so
it is panic-free exactly when every register value is at most 63.  Any
sketch reachable through `new`, `add_hash` and equal-precision `merge`
satisfies this (values are capped at `Q + 1 ≤ 61`), but `with_registers`
accepts arbitrary register values without validation, and on a store
containing the value 64 `count` aborts with an out-of-bounds index. -/
theorem count_histogram_panic (P : ℕ) (h4 : 4 ≤ P) (regs : List ℕ)
    (tau sigma : ℚ → ℚ) (ln2 : ℚ) :
    ((hll_count P regs tau sigma ln2).isSome ↔ ∀ r ∈ regs, r ≤ 63) ∧
    (Reachable P regs → (hll_count P regs tau sigma ln2).isSome) ∧
    hll_with_registers 4 (List.replicate 16 64) =
      some (List.replicate 16 64) ∧
    hll_count 4 (List.replicate 16 64) tau sigma ln2 = none := by
  have hsome : ∀ (Q : ℕ) (rs : List ℕ),
      (hll_count Q rs tau sigma ln2).isSome = (get_histogram rs).isSome := by
    intro Q rs
    unfold hll_count
    cases get_histogram rs with
    | none => rfl
    | some hist => rfl
  have hiff : ∀ (rs : List ℕ),
      ((get_histogram rs).isSome ↔ ∀ r ∈ rs, r ≤ 63) := by
    intro rs
    unfold get_histogram
    rw [hist_go_isSome]
    constructor
    · intro h r hr
      have := h r hr
      rw [List.length_replicate] at this
      omega
    · intro h r hr
      rw [List.length_replicate]
      have := h r hr
      omega
  refine ⟨?_, ?_, hll_with_registers_of_length (by decide), ?_⟩
  · rw [hsome, hiff]
  · intro hreach
    rw [hsome, hiff]
    intro r hr
    have := reachable_le P h4 hreach r hr
    omega
  · unfold hll_count
    rw [show get_histogram (List.replicate 16 64) = none from by decide]
    rfl

/-- Witness for C10: on a fresh precision-4 sketch `count` is panic-free. -/
theorem count_histogram_panic_witness :
    (hll_count 4 (List.replicate 16 0) (fun x => x) (fun x => x) 1).isSome := by
  have h := count_histogram_panic 4 (by decide) (List.replicate 16 0)
    (fun x => x) (fun x => x) 1
  exact h.2.1 Reachable.init

end SimpleHll
